import Mathlib

/-
Shallow embedding of the Hotel Room Reservation System (src/src/main.ts).

The embedding keeps the source's names:
  buildHotelRooms, travelTimeBetween, totalTravelTimeForRooms, allocateRooms.
JavaScript numbers holding integers are modelled as Int, arrays as List,
the `'free' | 'booked' | 'blocked'` union as an inductive type, and
`BookingResult | null` as Option BookingResult.
`Array.prototype.sort` (required stable by the ECMAScript standard) is
modelled by List.insertionSort, which is stable, with the numeric comparator
translated to a decidable "less or equal" relation.  The JS Map used to partition free
rooms by floor iterates in key-insertion order; it is modelled by an
association list into which rooms are inserted in list order, appending a
new floor key at the end on first occurrence.  The recursive `backtrack`
(push / recurse / pop over increasing start indices) enumerates exactly the
count-element combinations of the candidate pool in lexicographic order of
index sequences; `combinations` below produces that same list of
combinations in that same order.
-/

set_option maxRecDepth 10000

inductive RoomStatus
  | free
  | booked
  | blocked
deriving DecidableEq, Repr

structure Room where
  id : Int
  floor : Int
  indexOnFloor : Int
  status : RoomStatus
deriving DecidableEq, Repr

structure BookingResult where
  rooms : List Room
  totalTravelTime : Int
deriving DecidableEq, Repr

/-- Lines 20–49: the fixed hotel layout.  Floors 1–9 get 10 rooms each with
id = floor*100 + (i+1); floor 10 gets the 7 rooms 1001–1007. -/
def buildHotelRooms : List Room :=
  ((List.range 9).flatMap (fun f =>
    (List.range 10).map (fun i =>
      { id := ((f : Int) + 1) * 100 + ((i : Int) + 1)
        floor := (f : Int) + 1
        indexOnFloor := (i : Int)
        status := RoomStatus.free })))
  ++ ((List.range 7).map (fun i =>
    { id := 1001 + (i : Int)
      floor := 10
      indexOnFloor := (i : Int)
      status := RoomStatus.free }))

/-- Lines 52–56: `Math.abs(a.floor - b.floor) * 2 + Math.abs(a.indexOnFloor - b.indexOnFloor) * 1`. -/
def travelTimeBetween (a b : Room) : Int :=
  |a.floor - b.floor| * 2 + |a.indexOnFloor - b.indexOnFloor| * 1

/-- The multiset of travel times over all index pairs i < j, in the order the
double loop of lines 63–68 visits them. -/
def pairTimes : List Room → List Int
  | [] => []
  | r :: rs => rs.map (fun s => travelTimeBetween r s) ++ pairTimes rs

/-- Lines 59–70: 0 for fewer than two rooms, otherwise the running minimum of
the pairwise travel times (`best` starts at +∞, so an empty pair list — which
cannot occur when length ≥ 2 — yields 0). -/
def totalTravelTimeForRooms (rooms : List Room) : Int :=
  if rooms.length ≤ 1 then 0
  else
    match pairTimes rooms with
    | [] => 0
    | t :: ts => ts.foldl min t

/-- `r.status === 'free'` as a Bool predicate. -/
def isFree (r : Room) : Bool :=
  decide (r.status = RoomStatus.free)

/-- One step of building the by-floor JS Map (lines 83–86): append the room to
its floor's bucket, creating the bucket at the end on first occurrence (JS Map
iteration order is key-insertion order). -/
def insertByFloor : List (Int × List Room) → Room → List (Int × List Room)
  | [], r => [(r.floor, [r])]
  | (f, g) :: rest, r =>
    if f = r.floor then (f, g ++ [r]) :: rest
    else (f, g) :: insertByFloor rest r

/-- Lines 82–86: the `roomsByFloor` Map, as an association list in
key-insertion order. -/
def roomsByFloor (freeRooms : List Room) : List (Int × List Room) :=
  freeRooms.foldl insertByFloor []

/-- Comparator of line 90 (`a.indexOnFloor - b.indexOnFloor`, ascending). -/
def idxLe (a b : Room) : Prop :=
  a.indexOnFloor ≤ b.indexOnFloor

instance : DecidableRel idxLe :=
  fun a b => inferInstanceAs (Decidable (a.indexOnFloor ≤ b.indexOnFloor))

instance : IsTotal Room idxLe :=
  ⟨fun a b => le_total a.indexOnFloor b.indexOnFloor⟩

instance : IsTrans Room idxLe :=
  ⟨fun _ _ _ hab hbc => le_trans hab hbc⟩

/-- Comparator of lines 113–116: floor ascending, then indexOnFloor ascending. -/
def poolLe (a b : Room) : Prop :=
  a.floor < b.floor ∨ (a.floor = b.floor ∧ a.indexOnFloor ≤ b.indexOnFloor)

instance : DecidableRel poolLe :=
  fun a b => inferInstanceAs
    (Decidable (a.floor < b.floor ∨ (a.floor = b.floor ∧ a.indexOnFloor ≤ b.indexOnFloor)))

instance : IsTotal Room poolLe := by
  refine ⟨fun a b => ?_⟩
  unfold poolLe
  omega

instance : IsTrans Room poolLe := by
  refine ⟨fun a b c hab hbc => ?_⟩
  unfold poolLe at hab hbc ⊢
  omega

/-- A candidate room list together with its computed cost (lines 96–97 and 123–125). -/
def mkResult (cand : List Room) : BookingResult :=
  { rooms := cand, totalTravelTime := totalTravelTimeForRooms cand }

/-- The update `if (!best || time < best.totalTravelTime) best = candidate`
(lines 98–100 and 124–126): strict improvement replaces, so ties keep the
earlier candidate. -/
def better : Option BookingResult → BookingResult → Option BookingResult
  | none, cand => some cand
  | some b, cand =>
    if cand.totalTravelTime < b.totalTravelTime then some cand else some b

/-- Folding `better` over a list of candidate room lists. -/
def foldBetter (init : Option BookingResult) (cands : List (List Room)) :
    Option BookingResult :=
  cands.foldl (fun b c => better b (mkResult c)) init

/-- Lines 89–95: sort one floor's free rooms by indexOnFloor, skip the floor
when it has fewer than `count` rooms, otherwise list all contiguous windows of
width `count` left to right. -/
def floorWindows (count : Nat) (floorRooms : List Room) : List (List Room) :=
  if (List.insertionSort idxLe floorRooms).length < count then []
  else (List.range ((List.insertionSort idxLe floorRooms).length - count + 1)).map
    (fun start => ((List.insertionSort idxLe floorRooms).drop start).take count)

/-- Lines 80–102: the Phase 1 fold over floors in Map-insertion order,
tracking the best window seen so far. -/
def phase1 (byFloor : List (Int × List Room)) (count : Nat) : Option BookingResult :=
  byFloor.foldl (fun best g => foldBetter best (floorWindows count g.2)) none

/-- All combinations of exactly n elements of the list, in the order the
`backtrack` function of lines 121–134 reaches them (increasing start index,
depth first). -/
def combinations : Nat → List Room → List (List Room)
  | 0, _ => [[]]
  | _ + 1, [] => []
  | n + 1, x :: xs =>
    (combinations n xs).map (fun c => x :: c) ++ combinations (n + 1) xs

/-- Lines 111–117: sort the free rooms by (floor, indexOnFloor) and keep the
first `min(length, 20)`. -/
def candidatePool (freeRooms : List Room) : List Room :=
  (List.insertionSort poolLe freeRooms).take (min freeRooms.length 20)

/-- Lines 119–137: Phase 2, the exhaustive backtracking search over the
candidate pool. -/
def phase2 (freeRooms : List Room) (count : Nat) : Option BookingResult :=
  foldBetter none (combinations count (candidatePool freeRooms))

/-- Lines 73–138: the allocator.  Guard on count, guard on availability, then
Phase 1 (single floor); if Phase 1 found nothing, Phase 2 (cross floor). -/
def allocateRooms (rooms : List Room) (count : Int) : Option BookingResult :=
  if count ≤ 0 ∨ 5 < count then none
  else if ((rooms.filter isFree).length : Int) < count then none
  else
    match phase1 (roomsByFloor (rooms.filter isFree)) count.toNat with
    | some best => some best
    | none => phase2 (rooms.filter isFree) count.toNat

/-- The bucket of floor f in the association list (first matching key). -/
def groupOf : List (Int × List Room) → Int → List Room
  | [], _ => []
  | (k, g) :: rest, f => if k = f then g else groupOf rest f

/-- The keys of the association list, in order. -/
def floorKeys (acc : List (Int × List Room)) : List Int := acc.map Prod.fst

/-- Sample room: id 101, floor 1, position 0, free. -/
def sampleRoomA : Room :=
  { id := 101, floor := 1, indexOnFloor := 0, status := RoomStatus.free }

/-- Sample room: id 102, floor 1, position 1, free. -/
def sampleRoomB : Room :=
  { id := 102, floor := 1, indexOnFloor := 1, status := RoomStatus.free }

/-- Sample room: id 201, floor 2, position 0, free. -/
def sampleRoomC : Room :=
  { id := 201, floor := 2, indexOnFloor := 0, status := RoomStatus.free }

/-- The hotel state in which every room is booked except rooms 510 and 601. -/
def c5Rooms : List Room :=
  buildHotelRooms.map (fun r =>
    if r.id = 510 ∨ r.id = 601 then r else { r with status := RoomStatus.booked })

/-- Six free rooms on floor 1 (used to exercise a floor with six free rooms). -/
def floorSix : List Room :=
  (List.range 6).map (fun i =>
    { id := 101 + (i : Int), floor := 1, indexOnFloor := (i : Int),
      status := RoomStatus.free })

/-! ### Generic lemmas about the best-so-far fold -/

theorem foldBetter_append (init : Option BookingResult) (l l' : List (List Room)) :
    foldBetter init (l ++ l') = foldBetter (foldBetter init l) l' := by
  simp [foldBetter, List.foldl_append]

theorem foldBetter_inv (P : BookingResult → Prop) :
    ∀ (cands : List (List Room)) (init : Option BookingResult),
      (∀ x, init = some x → P x) → (∀ c ∈ cands, P (mkResult c)) →
      ∀ b, foldBetter init cands = some b → P b := by
  intro cands
  induction cands with
  | nil => intro init hi _ b hb; exact hi b hb
  | cons c cs ih =>
    intro init hi hc b hb
    have hb' : foldBetter (better init (mkResult c)) cs = some b := hb
    refine ih (better init (mkResult c)) ?_ ?_ b hb'
    · intro x hx
      cases init with
      | none =>
        simp only [better] at hx
        cases hx
        exact hc c (List.mem_cons_self c cs)
      | some b0 =>
        simp only [better] at hx
        split at hx
        · cases hx; exact hc c (List.mem_cons_self c cs)
        · cases hx; exact hi _ rfl
    · intro d hd
      exact hc d (List.mem_cons_of_mem c hd)

theorem ffm_aux :
    ∀ (cands : List (List Room)) (b : BookingResult),
      (foldBetter (some b) cands = some b ∧
        ∀ c ∈ cands, b.totalTravelTime ≤ totalTravelTimeForRooms c) ∨
      (∃ l₁ w l₂, cands = l₁ ++ w :: l₂ ∧
        foldBetter (some b) cands = some (mkResult w) ∧
        totalTravelTimeForRooms w < b.totalTravelTime ∧
        (∀ c ∈ cands, totalTravelTimeForRooms w ≤ totalTravelTimeForRooms c) ∧
        (∀ c ∈ l₁, totalTravelTimeForRooms w < totalTravelTimeForRooms c)) := by
  intro cands
  induction cands with
  | nil => intro b; left; exact ⟨rfl, by simp⟩
  | cons c cs ih =>
    intro b
    by_cases h : totalTravelTimeForRooms c < b.totalTravelTime
    · have hstep : foldBetter (some b) (c :: cs) = foldBetter (some (mkResult c)) cs := by
        simp [foldBetter, better, mkResult, h]
      rcases ih (mkResult c) with ⟨hf, hle⟩ | ⟨l₁, w, l₂, hdec, hf, hlt, hle, hstrict⟩
      · right
        refine ⟨[], c, cs, rfl, ?_, h, ?_, by simp⟩
        · rw [hstep]; exact hf
        · intro x hx
          rcases List.mem_cons.mp hx with rfl | hx
          · exact le_refl _
          · simpa [mkResult] using hle x hx
      · right
        have hltc : totalTravelTimeForRooms w < totalTravelTimeForRooms c := by
          simpa [mkResult] using hlt
        refine ⟨c :: l₁, w, l₂, by rw [hdec, List.cons_append], ?_, lt_trans hltc h, ?_, ?_⟩
        · rw [hstep]; exact hf
        · intro x hx
          rcases List.mem_cons.mp hx with rfl | hx
          · exact le_of_lt hltc
          · exact hle x hx
        · intro x hx
          rcases List.mem_cons.mp hx with rfl | hx
          · exact hltc
          · exact hstrict x hx
    · have hstep : foldBetter (some b) (c :: cs) = foldBetter (some b) cs := by
        simp [foldBetter, better, mkResult, h]
      rcases ih b with ⟨hf, hle⟩ | ⟨l₁, w, l₂, hdec, hf, hlt, hle, hstrict⟩
      · left
        refine ⟨by rw [hstep]; exact hf, ?_⟩
        intro x hx
        rcases List.mem_cons.mp hx with rfl | hx
        · exact le_of_not_lt h
        · exact hle x hx
      · right
        refine ⟨c :: l₁, w, l₂, by rw [hdec, List.cons_append], ?_, hlt, ?_, ?_⟩
        · rw [hstep]; exact hf
        · intro x hx
          rcases List.mem_cons.mp hx with rfl | hx
          · exact le_trans (le_of_lt hlt) (le_of_not_lt h)
          · exact hle x hx
        · intro x hx
          rcases List.mem_cons.mp hx with rfl | hx
          · exact lt_of_lt_of_le hlt (le_of_not_lt h)
          · exact hstrict x hx

theorem foldBetter_none_eq (cands : List (List Room)) (h : cands ≠ []) :
    ∃ l₁ w l₂, cands = l₁ ++ w :: l₂ ∧
      foldBetter none cands = some (mkResult w) ∧
      (∀ c ∈ cands, totalTravelTimeForRooms w ≤ totalTravelTimeForRooms c) ∧
      (∀ c ∈ l₁, totalTravelTimeForRooms w < totalTravelTimeForRooms c) := by
  match cands with
  | [] => exact absurd rfl h
  | c :: cs =>
    have hstep : foldBetter none (c :: cs) = foldBetter (some (mkResult c)) cs := by
      simp [foldBetter, better]
    rcases ffm_aux cs (mkResult c) with ⟨hf, hle⟩ | ⟨l₁, w, l₂, hdec, hf, hlt, hle, hstrict⟩
    · refine ⟨[], c, cs, rfl, ?_, ?_, by simp⟩
      · rw [hstep]; exact hf
      · intro x hx
        rcases List.mem_cons.mp hx with rfl | hx
        · exact le_refl _
        · simpa [mkResult] using hle x hx
    · have hltc : totalTravelTimeForRooms w < totalTravelTimeForRooms c := by
        simpa [mkResult] using hlt
      refine ⟨c :: l₁, w, l₂, by rw [hdec, List.cons_append], ?_, ?_, ?_⟩
      · rw [hstep]; exact hf
      · intro x hx
        rcases List.mem_cons.mp hx with rfl | hx
        · exact le_of_lt hltc
        · exact hle x hx
      · intro x hx
        rcases List.mem_cons.mp hx with rfl | hx
        · exact hltc
        · exact hstrict x hx

theorem foldBetter_none_ne_none (cands : List (List Room)) (h : cands ≠ []) :
    foldBetter none cands ≠ none := by
  rcases foldBetter_none_eq cands h with ⟨l₁, w, l₂, _, hf, _, _⟩
  rw [hf]
  exact Option.some_ne_none _

theorem phase1_eq_foldBetter (c : Nat) :
    ∀ (l : List (Int × List Room)) (init : Option BookingResult),
      l.foldl (fun best g => foldBetter best (floorWindows c g.2)) init
        = foldBetter init (l.flatMap (fun g => floorWindows c g.2)) := by
  intro l
  induction l with
  | nil => intro init; rfl
  | cons g gs ih =>
    intro init
    rw [List.foldl_cons, ih, List.flatMap_cons, foldBetter_append]

theorem phase1_eq (byFloor : List (Int × List Room)) (c : Nat) :
    phase1 byFloor c
      = foldBetter none (byFloor.flatMap (fun g => floorWindows c g.2)) :=
  phase1_eq_foldBetter c byFloor none

/-! ### Lemmas about the Phase 1 windows -/

theorem floorWindows_mem {count : Nat} {fr w : List Room}
    (h : w ∈ floorWindows count fr) :
    w.length = count ∧ w.Sublist (List.insertionSort idxLe fr) := by
  unfold floorWindows at h
  by_cases hlt : (List.insertionSort idxLe fr).length < count
  · rw [if_pos hlt] at h
    cases h
  · rw [if_neg hlt] at h
    obtain ⟨start, hstart, rfl⟩ := List.mem_map.mp h
    have hs := List.mem_range.mp hstart
    constructor
    · rw [List.length_take, List.length_drop]
      omega
    · exact (List.take_sublist _ _).trans (List.drop_sublist _ _)

theorem floorWindows_ne_nil {count : Nat} {fr : List Room}
    (h : count ≤ fr.length) : floorWindows count fr ≠ [] := by
  have hL : (List.insertionSort idxLe fr).length = fr.length := List.length_insertionSort idxLe fr
  unfold floorWindows
  rw [if_neg (by omega)]
  intro hnil
  have := congrArg List.length hnil
  simp at this

theorem floorWindows_one {fr : List Room} (h : fr ≠ []) :
    ∃ hd tl rest, List.insertionSort idxLe fr = hd :: tl ∧
      floorWindows 1 fr = [hd] :: rest := by
  have hL : (List.insertionSort idxLe fr).length = fr.length := List.length_insertionSort idxLe fr
  have hne : List.insertionSort idxLe fr ≠ [] := by
    intro heq
    apply h
    have := congrArg List.length heq
    rw [hL] at this
    exact List.length_eq_zero.mp this
  obtain ⟨hd, tl, heq⟩ := List.exists_cons_of_ne_nil hne
  refine ⟨hd, tl,
    ((List.range tl.length).map Nat.succ).map
      (fun start => (((hd :: tl) : List Room).drop start).take 1), heq, ?_⟩
  unfold floorWindows
  rw [heq]
  rw [if_neg (by simp)]
  simp only [List.length_cons, Nat.add_sub_cancel, List.range_succ_eq_map, List.map_cons]
  rfl

/-! ### Lemmas about the by-floor grouping -/

theorem groupOf_insert (acc : List (Int × List Room)) (r : Room) (f : Int) :
    groupOf (insertByFloor acc r) f =
      if f = r.floor then groupOf acc f ++ [r] else groupOf acc f := by
  induction acc with
  | nil =>
    by_cases h : f = r.floor
    · subst h
      simp [insertByFloor, groupOf]
    · have h' : ¬ r.floor = f := fun hh => h hh.symm
      simp [insertByFloor, groupOf, h, h']
  | cons p rest ih =>
    obtain ⟨k, g⟩ := p
    simp only [insertByFloor]
    by_cases hk : k = r.floor
    · rw [if_pos hk]
      by_cases hf : f = r.floor
      · have hkf : k = f := by rw [hk, hf]
        rw [if_pos hf]
        show (if k = f then g ++ [r] else groupOf rest f)
          = (if k = f then g else groupOf rest f) ++ [r]
        rw [if_pos hkf, if_pos hkf]
      · have hkf : ¬ k = f := by rw [hk]; exact fun hh => hf hh.symm
        rw [if_neg hf]
        show (if k = f then g ++ [r] else groupOf rest f)
          = (if k = f then g else groupOf rest f)
        rw [if_neg hkf, if_neg hkf]
    · rw [if_neg hk]
      by_cases hkf : k = f
      · have hf : ¬ f = r.floor := by rw [← hkf]; exact hk
        rw [if_neg hf]
        show (if k = f then g else groupOf (insertByFloor rest r) f)
          = (if k = f then g else groupOf rest f)
        rw [if_pos hkf, if_pos hkf]
      · show (if k = f then g else groupOf (insertByFloor rest r) f)
          = if f = r.floor
            then (if k = f then g else groupOf rest f) ++ [r]
            else (if k = f then g else groupOf rest f)
        rw [if_neg hkf, if_neg hkf, ih]

theorem fold_groupOf :
    ∀ (l : List Room) (acc : List (Int × List Room)) (f : Int),
      groupOf (List.foldl insertByFloor acc l) f
        = groupOf acc f ++ l.filter (fun r => decide (r.floor = f)) := by
  intro l
  induction l with
  | nil => intro acc f; simp
  | cons r rs ih =>
    intro acc f
    rw [List.foldl_cons, ih, groupOf_insert]
    by_cases h : f = r.floor
    · rw [if_pos h, List.filter_cons, if_pos (by simp [h.symm])]
      simp
    · rw [if_neg h, List.filter_cons,
        if_neg (by simp; exact fun hh => h hh.symm)]

theorem mem_floorKeys_insert (acc : List (Int × List Room)) (r : Room) (x : Int) :
    x ∈ floorKeys (insertByFloor acc r) ↔ x ∈ floorKeys acc ∨ x = r.floor := by
  induction acc with
  | nil => simp [insertByFloor, floorKeys]
  | cons p rest ih =>
    obtain ⟨k, g⟩ := p
    simp only [insertByFloor]
    by_cases hk : k = r.floor
    · rw [if_pos hk]
      show x ∈ k :: floorKeys rest ↔ x ∈ k :: floorKeys rest ∨ x = r.floor
      rw [← hk]
      constructor
      · exact fun hh => Or.inl hh
      · intro hh
        rcases hh with hh | rfl
        · exact hh
        · exact List.mem_cons_self _ _
    · rw [if_neg hk]
      show x ∈ k :: floorKeys (insertByFloor rest r)
        ↔ x ∈ k :: floorKeys rest ∨ x = r.floor
      rw [List.mem_cons, List.mem_cons, ih]
      tauto

theorem keysNodup_insert (acc : List (Int × List Room)) (r : Room)
    (h : (floorKeys acc).Nodup) : (floorKeys (insertByFloor acc r)).Nodup := by
  induction acc with
  | nil =>
    show ([r.floor] : List Int).Nodup
    simp
  | cons p rest ih =>
    obtain ⟨k, g⟩ := p
    have hh : floorKeys ((k, g) :: rest) = k :: floorKeys rest := rfl
    rw [hh, List.nodup_cons] at h
    obtain ⟨hknot, hnd⟩ := h
    simp only [insertByFloor]
    by_cases hk : k = r.floor
    · rw [if_pos hk]
      show (k :: floorKeys rest).Nodup
      rw [List.nodup_cons]
      exact ⟨hknot, hnd⟩
    · rw [if_neg hk]
      show (k :: floorKeys (insertByFloor rest r)).Nodup
      rw [List.nodup_cons]
      refine ⟨?_, ih hnd⟩
      intro hmem
      rcases (mem_floorKeys_insert rest r k).mp hmem with hin | heq
      · exact hknot hin
      · exact hk heq

theorem groupOf_mem (acc : List (Int × List Room))
    (h : (floorKeys acc).Nodup) (q : Int × List Room) (hq : q ∈ acc) :
    groupOf acc q.1 = q.2 := by
  induction acc with
  | nil => cases hq
  | cons p rest ih =>
    obtain ⟨k, g⟩ := p
    have hh : floorKeys ((k, g) :: rest) = k :: floorKeys rest := rfl
    rw [hh, List.nodup_cons] at h
    rcases List.mem_cons.mp hq with rfl | hq'
    · show (if k = (k, g).1 then g else groupOf rest (k, g).1) = (k, g).2
      simp
    · have hk : ¬ k = q.1 := by
        intro heq
        apply h.1
        rw [heq]
        exact List.mem_map.mpr ⟨q, hq', rfl⟩
      show (if k = q.1 then g else groupOf rest q.1) = q.2
      rw [if_neg hk]
      exact ih h.2 hq'

theorem roomsByFloor_keysNodup (l : List Room) :
    (floorKeys (roomsByFloor l)).Nodup := by
  suffices h : ∀ (l : List Room) (acc : List (Int × List Room)),
      (floorKeys acc).Nodup → (floorKeys (List.foldl insertByFloor acc l)).Nodup by
    exact h l [] (by simp [floorKeys])
  intro l
  induction l with
  | nil => intro acc h; exact h
  | cons r rs ih => intro acc h; exact ih _ (keysNodup_insert acc r h)

theorem roomsByFloor_group (l : List Room) (q : Int × List Room)
    (hq : q ∈ roomsByFloor l) :
    q.2 = l.filter (fun r => decide (r.floor = q.1)) := by
  have h1 := groupOf_mem _ (roomsByFloor_keysNodup l) q hq
  have h2 := fold_groupOf l [] q.1
  rw [← h1]
  rw [roomsByFloor] at h1 ⊢
  rw [h2]
  simp [groupOf]

theorem mem_floorKeys_foldl :
    ∀ (l : List Room) (acc : List (Int × List Room)) (x : Int),
      x ∈ floorKeys (List.foldl insertByFloor acc l)
        ↔ x ∈ floorKeys acc ∨ ∃ r ∈ l, r.floor = x := by
  intro l
  induction l with
  | nil => intro acc x; simp
  | cons r rs ih =>
    intro acc x
    rw [List.foldl_cons, ih, mem_floorKeys_insert]
    simp
    tauto

theorem roomsByFloor_keys_iff (l : List Room) (f : Int) :
    f ∈ floorKeys (roomsByFloor l) ↔ ∃ r ∈ l, r.floor = f := by
  rw [roomsByFloor, mem_floorKeys_foldl]
  simp [floorKeys]

theorem roomsByFloor_exists_group (l : List Room) (f : Int)
    (h : ∃ r ∈ l, r.floor = f) :
    ∃ q ∈ roomsByFloor l, q.1 = f := by
  have hmem := (roomsByFloor_keys_iff l f).mpr h
  obtain ⟨q, hq, hq1⟩ := List.mem_map.mp hmem
  exact ⟨q, hq, hq1⟩

theorem foldl_insert_head :
    ∀ (l : List Room) (f : Int) (g : List Room) (acc : List (Int × List Room)),
      ∃ g' rest, List.foldl insertByFloor ((f, g) :: acc) l = (f, g') :: rest := by
  intro l
  induction l with
  | nil => intro f g acc; exact ⟨g, acc, rfl⟩
  | cons r rs ih =>
    intro f g acc
    rw [List.foldl_cons]
    simp only [insertByFloor]
    by_cases h : f = r.floor
    · rw [if_pos h]
      exact ih f (g ++ [r]) acc
    · rw [if_neg h]
      exact ih f g (insertByFloor acc r)

theorem roomsByFloor_cons_head (r₀ : Room) (l : List Room) :
    ∃ g rest, roomsByFloor (r₀ :: l) = (r₀.floor, g) :: rest := by
  rw [roomsByFloor, List.foldl_cons]
  exact foldl_insert_head l r₀.floor [r₀] []

/-! ### Lemmas about combinations and the Phase 2 pool -/

theorem mem_combinations :
    ∀ (l : List Room) (n : Nat) (c : List Room),
      c ∈ combinations n l ↔ (c.length = n ∧ c.Sublist l) := by
  intro l
  induction l with
  | nil =>
    intro n c
    cases n with
    | zero =>
      simp only [combinations, List.mem_singleton]
      constructor
      · rintro rfl
        exact ⟨rfl, List.nil_sublist _⟩
      · rintro ⟨h1, _⟩
        exact List.length_eq_zero.mp h1
    | succ n =>
      simp only [combinations, List.not_mem_nil, false_iff]
      rintro ⟨h1, h2⟩
      rw [List.sublist_nil.mp h2] at h1
      cases h1
  | cons x xs ih =>
    intro n c
    cases n with
    | zero =>
      simp only [combinations, List.mem_singleton]
      constructor
      · rintro rfl
        exact ⟨rfl, List.nil_sublist _⟩
      · rintro ⟨h1, _⟩
        exact List.length_eq_zero.mp h1
    | succ n =>
      simp only [combinations, List.mem_append, List.mem_map]
      constructor
      · rintro (⟨c', hc', rfl⟩ | h)
        · obtain ⟨hlen, hsub⟩ := (ih n c').mp hc'
          exact ⟨by simp [hlen], hsub.cons₂ x⟩
        · obtain ⟨hlen, hsub⟩ := (ih (n + 1) c).mp h
          exact ⟨hlen, hsub.cons x⟩
      · rintro ⟨hlen, hsub⟩
        rcases List.sublist_cons_iff.mp hsub with hsub' | ⟨t, heq, ht⟩
        · right
          exact (ih (n + 1) c).mpr ⟨hlen, hsub'⟩
        · left
          refine ⟨t, (ih n t).mpr ⟨?_, ht⟩, heq.symm⟩
          rw [heq] at hlen
          simpa using hlen

theorem combinations_ne_nil {n : Nat} {l : List Room} (h : n ≤ l.length) :
    combinations n l ≠ [] := by
  have hmem : l.take n ∈ combinations n l := by
    refine (mem_combinations l n _).mpr ⟨?_, List.take_sublist _ _⟩
    rw [List.length_take]
    omega
  exact List.ne_nil_of_mem hmem

theorem candidatePool_mem {freeRooms : List Room} {r : Room}
    (h : r ∈ candidatePool freeRooms) : r ∈ freeRooms :=
  (List.perm_insertionSort poolLe freeRooms).mem_iff.mp
    ((List.take_sublist _ _).subset h)

theorem candidatePool_nodup {freeRooms : List Room} (h : freeRooms.Nodup) :
    (candidatePool freeRooms).Nodup :=
  List.Nodup.sublist (List.take_sublist _ _)
    ((List.perm_insertionSort poolLe freeRooms).symm.nodup h)

theorem candidatePool_length (freeRooms : List Room) :
    (candidatePool freeRooms).length = min freeRooms.length 20 := by
  simp only [candidatePool, List.length_take, List.length_insertionSort]
  omega

theorem candidatePool_eq_take20 (freeRooms : List Room) :
    candidatePool freeRooms = (List.insertionSort poolLe freeRooms).take 20 := by
  unfold candidatePool
  rcases le_total freeRooms.length 20 with h | h
  · rw [min_eq_left h,
      List.take_of_length_le (by rw [List.length_insertionSort]),
      List.take_of_length_le (by rw [List.length_insertionSort]; exact h)]
  · rw [min_eq_right h]

/-! ### Sortedness of the modelled sorts -/

theorem sorted_insertionSort_idxLe (l : List Room) :
    List.Pairwise idxLe (List.insertionSort idxLe l) :=
  List.sorted_insertionSort idxLe l

theorem sorted_insertionSort_poolLe (l : List Room) :
    List.Pairwise poolLe (List.insertionSort poolLe l) :=
  List.sorted_insertionSort poolLe l

/-! ### The pairwise-minimum travel time -/

theorem mem_pairTimes :
    ∀ (l : List Room) (x : Int),
      x ∈ pairTimes l
        ↔ ∃ a b, ([a, b] : List Room).Sublist l ∧ x = travelTimeBetween a b := by
  intro l
  induction l with
  | nil =>
    intro x
    simp only [pairTimes, List.not_mem_nil, false_iff]
    rintro ⟨a, b, hab, _⟩
    cases List.sublist_nil.mp hab
  | cons r rs ih =>
    intro x
    simp only [pairTimes, List.mem_append, List.mem_map]
    constructor
    · rintro (⟨s, hs, rfl⟩ | h)
      · exact ⟨r, s, (List.singleton_sublist.mpr hs).cons₂ r, rfl⟩
      · obtain ⟨a, b, hab, rfl⟩ := (ih x).mp h
        exact ⟨a, b, hab.cons r, rfl⟩
    · rintro ⟨a, b, hab, rfl⟩
      rcases List.sublist_cons_iff.mp hab with h' | ⟨t, heq, ht⟩
      · right
        exact (ih _).mpr ⟨a, b, h', rfl⟩
      · left
        injection heq with h1 h2
        subst h1
        subst h2
        exact ⟨b, List.singleton_sublist.mp ht, rfl⟩

theorem foldl_min_mem : ∀ (ts : List Int) (t : Int), ts.foldl min t ∈ t :: ts := by
  intro ts
  induction ts with
  | nil => intro t; simp
  | cons s ss ih =>
    intro t
    rw [List.foldl_cons]
    rcases List.mem_cons.mp (ih (min t s)) with heq | hmem
    · rw [heq]
      rcases min_choice t s with h | h <;> rw [h]
      · exact List.mem_cons_self _ _
      · exact List.mem_cons_of_mem _ (List.mem_cons_self _ _)
    · exact List.mem_cons_of_mem _ (List.mem_cons_of_mem _ hmem)

theorem foldl_min_le_init : ∀ (ts : List Int) (t : Int), ts.foldl min t ≤ t := by
  intro ts
  induction ts with
  | nil => intro t; exact le_refl t
  | cons s ss ih =>
    intro t
    rw [List.foldl_cons]
    exact le_trans (ih (min t s)) (min_le_left t s)

theorem foldl_min_le : ∀ (ts : List Int) (t x : Int), x ∈ t :: ts → ts.foldl min t ≤ x := by
  intro ts
  induction ts with
  | nil =>
    intro t x hx
    have heq : x = t := by simpa using hx
    rw [heq]
    exact le_refl t
  | cons s ss ih =>
    intro t x hx
    rw [List.foldl_cons]
    rcases List.mem_cons.mp hx with heq | hx'
    · rw [heq]
      exact le_trans (foldl_min_le_init ss (min t s)) (min_le_left t s)
    · rcases List.mem_cons.mp hx' with heq | hx''
      · rw [heq]
        exact le_trans (foldl_min_le_init ss (min t s)) (min_le_right t s)
      · exact ih (min t s) x (List.mem_cons_of_mem _ hx'')

theorem totalTravelTime_short (rooms : List Room) (h : rooms.length ≤ 1) :
    totalTravelTimeForRooms rooms = 0 := by
  unfold totalTravelTimeForRooms
  rw [if_pos h]

theorem totalTravelTime_min (rooms : List Room) (h : 2 ≤ rooms.length) :
    (∃ a b, ([a, b] : List Room).Sublist rooms ∧
       totalTravelTimeForRooms rooms = travelTimeBetween a b) ∧
    (∀ a b, ([a, b] : List Room).Sublist rooms →
       totalTravelTimeForRooms rooms ≤ travelTimeBetween a b) := by
  have hne1 : rooms ≠ [] := by
    intro h0
    rw [h0] at h
    simp at h
  obtain ⟨r1, rest1, rfl⟩ := List.exists_cons_of_ne_nil hne1
  have hne2 : rest1 ≠ [] := by
    intro h0
    rw [h0] at h
    simp at h
  obtain ⟨r2, t, rfl⟩ := List.exists_cons_of_ne_nil hne2
  have hne : pairTimes (r1 :: r2 :: t)
      = travelTimeBetween r1 r2
        :: ((t.map (fun s => travelTimeBetween r1 s)) ++ pairTimes (r2 :: t)) := by
    simp [pairTimes]
  have hval : totalTravelTimeForRooms (r1 :: r2 :: t)
      = ((t.map (fun s => travelTimeBetween r1 s)) ++ pairTimes (r2 :: t)).foldl min
          (travelTimeBetween r1 r2) := by
    unfold totalTravelTimeForRooms
    rw [if_neg (by simp), hne]
  constructor
  · have hmem := foldl_min_mem
      ((t.map (fun s => travelTimeBetween r1 s)) ++ pairTimes (r2 :: t))
      (travelTimeBetween r1 r2)
    rw [← hne, ← hval] at hmem
    obtain ⟨a, b, hab, hx⟩ := (mem_pairTimes _ _).mp hmem
    exact ⟨a, b, hab, hx⟩
  · intro a b hab
    have hmem : travelTimeBetween a b ∈ pairTimes (r1 :: r2 :: t) :=
      (mem_pairTimes _ _).mpr ⟨a, b, hab, rfl⟩
    rw [hne] at hmem
    rw [hval]
    exact foldl_min_le _ _ _ hmem

/-! ### Unfolding the allocator past its guards -/

theorem allocateRooms_valid_eq (rooms : List Room) (count : Int)
    (h1 : 1 ≤ count) (h5 : count ≤ 5)
    (hav : count ≤ ((rooms.filter isFree).length : Int)) :
    allocateRooms rooms count
      = match phase1 (roomsByFloor (rooms.filter isFree)) count.toNat with
        | some best => some best
        | none => phase2 (rooms.filter isFree) count.toNat := by
  unfold allocateRooms
  rw [if_neg (by omega), if_neg (by omega)]

theorem allocateRooms_invalid (rooms : List Room) (count : Int)
    (h : count ≤ 0 ∨ 5 < count ∨ ((rooms.filter isFree).length : Int) < count) :
    allocateRooms rooms count = none := by
  unfold allocateRooms
  by_cases h0 : count ≤ 0 ∨ 5 < count
  · rw [if_pos h0]
  · rcases h with h | h | h
    · exact absurd (Or.inl h) h0
    · exact absurd (Or.inr h) h0
    · rw [if_neg h0, if_pos h]

/-- Any successful fold result carries the computed cost of its own room list. -/
theorem foldBetter_time (cands : List (List Room)) (b : BookingResult)
    (h : foldBetter none cands = some b) :
    b.totalTravelTime = totalTravelTimeForRooms b.rooms :=
  foldBetter_inv (fun x => x.totalTravelTime = totalTravelTimeForRooms x.rooms)
    cands none (fun x hx => by cases hx) (fun _ _ => rfl) b h

/-! ### The claims -/

/-- C2: allocateRooms returns none (and in particular does not produce a
result) whenever count ≤ 0, count > 5, or the number of rooms with status
free is strictly less than count; count = 0 and count = 6 are instances. -/
theorem claim_C2_invalid_none (rooms : List Room) (count : Int)
    (h : count ≤ 0 ∨ 5 < count ∨ ((rooms.filter isFree).length : Int) < count) :
    allocateRooms rooms count = none :=
  allocateRooms_invalid rooms count h

/-- Witness for C2: count = 0 and count = 6 on the full free hotel, and a
one-room request against an empty hotel. -/
theorem claim_C2_witness :
    allocateRooms buildHotelRooms 0 = none ∧
    allocateRooms buildHotelRooms 6 = none ∧
    allocateRooms [] 1 = none :=
  ⟨claim_C2_invalid_none buildHotelRooms 0 (Or.inl (by decide)),
   claim_C2_invalid_none buildHotelRooms 6 (Or.inr (Or.inl (by decide))),
   claim_C2_invalid_none [] 1 (Or.inr (Or.inr (by decide)))⟩

/-- C7: travelTimeBetween is the weighted Manhattan metric
|Δfloor|·2 + |Δposition|·1; it is symmetric, non-negative, and zero on a
pair of equal rooms. -/
theorem claim_C7_travel_time (a b : Room) :
    travelTimeBetween a b
        = |a.floor - b.floor| * 2 + |a.indexOnFloor - b.indexOnFloor| * 1 ∧
    travelTimeBetween a b = travelTimeBetween b a ∧
    0 ≤ travelTimeBetween a b ∧
    (a = b → travelTimeBetween a b = 0) := by
  refine ⟨rfl, ?_, ?_, ?_⟩
  · unfold travelTimeBetween
    rw [abs_sub_comm a.floor, abs_sub_comm a.indexOnFloor]
  · unfold travelTimeBetween
    have h1 := abs_nonneg (a.floor - b.floor)
    have h2 := abs_nonneg (a.indexOnFloor - b.indexOnFloor)
    omega
  · rintro rfl
    unfold travelTimeBetween
    simp

/-- Witness for C7: the zero-on-equal clause at a concrete room. -/
theorem claim_C7_witness : travelTimeBetween sampleRoomA sampleRoomA = 0 :=
  (claim_C7_travel_time sampleRoomA sampleRoomA).2.2.2 rfl

/-- C4: totalTravelTimeForRooms is 0 on lists of fewer than two rooms, and on
longer lists it is the minimum of travelTimeBetween over all unordered pairs
(two-element sublists): it is attained by some pair and bounds every pair. -/
theorem claim_C4_min_pairwise (rooms : List Room) :
    (rooms.length < 2 → totalTravelTimeForRooms rooms = 0) ∧
    (2 ≤ rooms.length →
      (∃ a b, ([a, b] : List Room).Sublist rooms ∧
         totalTravelTimeForRooms rooms = travelTimeBetween a b) ∧
      (∀ a b, ([a, b] : List Room).Sublist rooms →
         totalTravelTimeForRooms rooms ≤ travelTimeBetween a b)) := by
  constructor
  · intro h
    exact totalTravelTime_short rooms (by omega)
  · intro h
    exact totalTravelTime_min rooms h

/-- Witness for C4: the empty list, a singleton, and a two-element list. -/
theorem claim_C4_witness :
    totalTravelTimeForRooms [] = 0 ∧
    totalTravelTimeForRooms [sampleRoomA] = 0 ∧
    totalTravelTimeForRooms [sampleRoomA, sampleRoomB]
      ≤ travelTimeBetween sampleRoomA sampleRoomB :=
  ⟨(claim_C4_min_pairwise []).1 (by decide),
   (claim_C4_min_pairwise [sampleRoomA]).1 (by decide),
   ((claim_C4_min_pairwise [sampleRoomA, sampleRoomB]).2 (by decide)).2
     sampleRoomA sampleRoomB (List.Sublist.refl _)⟩

/-- C9: whenever the allocator returns a result, its totalTravelTime field is
exactly totalTravelTimeForRooms of its room list, in both phases. -/
theorem claim_C9_time_consistent (rooms : List Room) (count : Int)
    (b : BookingResult) (h : allocateRooms rooms count = some b) :
    b.totalTravelTime = totalTravelTimeForRooms b.rooms := by
  unfold allocateRooms at h
  by_cases h0 : count ≤ 0 ∨ 5 < count
  · rw [if_pos h0] at h
    cases h
  · rw [if_neg h0] at h
    by_cases hl : ((rooms.filter isFree).length : Int) < count
    · rw [if_pos hl] at h
      cases h
    · rw [if_neg hl] at h
      cases hp : phase1 (roomsByFloor (rooms.filter isFree)) count.toNat with
      | some best =>
        rw [hp] at h
        have hb : some best = some b := h
        injection hb with hb
        subst hb
        rw [phase1_eq] at hp
        exact foldBetter_time _ _ hp
      | none =>
        rw [hp] at h
        have hb : phase2 (rooms.filter isFree) count.toNat = some b := h
        unfold phase2 at hb
        exact foldBetter_time _ _ hb

/-- Witness for C9: a one-room hotel. -/
theorem claim_C9_witness :
    (BookingResult.mk [sampleRoomA] 0).totalTravelTime
      = totalTravelTimeForRooms [sampleRoomA] :=
  claim_C9_time_consistent [sampleRoomA] 1 (BookingResult.mk [sampleRoomA] 0)
    (by decide)

/-- C5 counterexample: in the state where every room is booked except 510 and
601, allocating one room yields room 510, not room 601 as the claim states
(floor 5 is reached first in Map-insertion order and ties keep the earlier
candidate). -/
theorem claim_C5_counterexample :
    (allocateRooms c5Rooms 1).map (fun b => b.rooms.map Room.id) = some [510] ∧
    (allocateRooms c5Rooms 1).map (fun b => b.rooms.map Room.id) ≠ some [601] := by
  decide

/-- C5 amended: in the state where every room is booked except 510 and 601
(the two free rooms, in this order), allocating one room returns the set
{510} with totalTravelTime 0. -/
theorem claim_C5_amended_result :
    (c5Rooms.filter isFree).map Room.id = [510, 601] ∧
    allocateRooms c5Rooms 1
      = some { rooms := [{ id := 510, floor := 5, indexOnFloor := 9,
                           status := RoomStatus.free }],
               totalTravelTime := 0 } := by
  decide

/-- C1 counterexample: on an input list containing the same free room twice,
a two-room request succeeds but returns that room twice, so the result's
rooms are not pairwise distinct even though two rooms with status free were
available. -/
theorem claim_C1_counterexample :
    (2 : Int) ≤ (([sampleRoomA, sampleRoomA].filter isFree).length : Int) ∧
    allocateRooms [sampleRoomA, sampleRoomA] 2
      = some { rooms := [sampleRoomA, sampleRoomA], totalTravelTime := 0 } ∧
    ¬ ([sampleRoomA, sampleRoomA] : List Room).Nodup := by
  decide

/-- C8: buildHotelRooms yields exactly 97 rooms, all free; floors 1–9 have 10
rooms each with id = floor·100 + position + 1; floor 10 has exactly the ids
1001–1007; the ids are globally unique; and each floor's positions form the
contiguous range 0, 1, … in order. -/
theorem claim_C8_layout :
    buildHotelRooms.length = 97 ∧
    (∀ r ∈ buildHotelRooms, r.status = RoomStatus.free) ∧
    (∀ f : Int, f ∈ ([1, 2, 3, 4, 5, 6, 7, 8, 9] : List Int) →
      ((buildHotelRooms.filter (fun r => decide (r.floor = f))).length = 10)) ∧
    (∀ r ∈ buildHotelRooms, r.floor ≤ 9 →
      r.id = r.floor * 100 + r.indexOnFloor + 1) ∧
    ((buildHotelRooms.filter (fun r => decide (r.floor = 10))).map Room.id
        = [1001, 1002, 1003, 1004, 1005, 1006, 1007]) ∧
    (buildHotelRooms.map Room.id).Nodup ∧
    (∀ f : Int, f ∈ ([1, 2, 3, 4, 5, 6, 7, 8, 9, 10] : List Int) →
      (buildHotelRooms.filter (fun r => decide (r.floor = f))).map Room.indexOnFloor
        = (List.range
            ((buildHotelRooms.filter (fun r => decide (r.floor = f))).length)).map
            (fun n => (n : Int))) := by
  decide

/-- C1 amended: for a duplicate-free input list and 1 ≤ count ≤ 5, whenever at
least count rooms have status free, allocateRooms returns a result whose room
list has exactly count pairwise-distinct rooms, each a member of the input
with status free.  (The Nodup hypothesis is forced by the counterexample: a
list containing the same room twice yields a result with repeats.) -/
theorem claim_C1_amended_alloc_valid (rooms : List Room) (count : Int)
    (hnd : rooms.Nodup) (h1 : 1 ≤ count) (h5 : count ≤ 5)
    (hav : count ≤ ((rooms.filter isFree).length : Int)) :
    ∃ b, allocateRooms rooms count = some b ∧
      (b.rooms.length : Int) = count ∧ b.rooms.Nodup ∧
      ∀ r ∈ b.rooms, r ∈ rooms ∧ r.status = RoomStatus.free := by
  have hFRnodup : (rooms.filter isFree).Nodup := hnd.filter _
  have hrw := allocateRooms_valid_eq rooms count h1 h5 hav
  have hmemfree : ∀ r ∈ rooms.filter isFree, r ∈ rooms ∧ r.status = RoomStatus.free := by
    intro r hr
    have hr' := List.mem_filter.mp hr
    exact ⟨hr'.1, by simpa [isFree] using hr'.2⟩
  have hQ1 : ∀ w ∈ (roomsByFloor (rooms.filter isFree)).flatMap
      (fun g => floorWindows count.toNat g.2),
      w.length = count.toNat ∧ w.Nodup ∧
        ∀ r ∈ w, r ∈ rooms ∧ r.status = RoomStatus.free := by
    intro w hw
    obtain ⟨g, hg, hwg⟩ := List.mem_flatMap.mp hw
    obtain ⟨hlen, hsub⟩ := floorWindows_mem hwg
    have hg2 : g.2 = (rooms.filter isFree).filter (fun r => decide (r.floor = g.1)) :=
      roomsByFloor_group _ g hg
    have hg2nodup : g.2.Nodup := by
      rw [hg2]
      exact hFRnodup.filter _
    have hsortnodup : (List.insertionSort idxLe g.2).Nodup :=
      (List.perm_insertionSort idxLe g.2).symm.nodup hg2nodup
    refine ⟨hlen, List.Nodup.sublist hsub hsortnodup, ?_⟩
    intro r hr
    have hr2 : r ∈ g.2 :=
      (List.perm_insertionSort idxLe g.2).mem_iff.mp (hsub.subset hr)
    rw [hg2] at hr2
    exact hmemfree r (List.mem_of_mem_filter hr2)
  have hQ2 : ∀ w ∈ combinations count.toNat (candidatePool (rooms.filter isFree)),
      w.length = count.toNat ∧ w.Nodup ∧
        ∀ r ∈ w, r ∈ rooms ∧ r.status = RoomStatus.free := by
    intro w hw
    obtain ⟨hlen, hsub⟩ := (mem_combinations _ _ _).mp hw
    refine ⟨hlen, List.Nodup.sublist hsub (candidatePool_nodup hFRnodup), ?_⟩
    intro r hr
    exact hmemfree r (candidatePool_mem (hsub.subset hr))
  cases hp : phase1 (roomsByFloor (rooms.filter isFree)) count.toNat with
  | some best =>
    refine ⟨best, ?_, ?_⟩
    · rw [hrw, hp]
    · rw [phase1_eq] at hp
      exact foldBetter_inv
        (fun x => (x.rooms.length : Int) = count ∧ x.rooms.Nodup ∧
          ∀ r ∈ x.rooms, r ∈ rooms ∧ r.status = RoomStatus.free)
        _ none (fun x hx => by cases hx)
        (fun c hc => by
          obtain ⟨hlen, hnodup, hmem⟩ := hQ1 c hc
          refine ⟨?_, hnodup, hmem⟩
          show ((c.length : Int) = count)
          omega)
        best hp
  | none =>
    have hpoollen : count.toNat ≤ (candidatePool (rooms.filter isFree)).length := by
      rw [candidatePool_length]
      omega
    obtain ⟨l₁, w, l₂, hdec, hf, hmin, hstrict⟩ :=
      foldBetter_none_eq _ (combinations_ne_nil hpoollen)
    have hw : w ∈ combinations count.toNat (candidatePool (rooms.filter isFree)) := by
      rw [hdec]
      exact List.mem_append.mpr (Or.inr (List.mem_cons_self _ _))
    obtain ⟨hlen, hnodup, hmem⟩ := hQ2 w hw
    refine ⟨mkResult w, ?_, ?_, hnodup, hmem⟩
    · rw [hrw, hp]
      show phase2 (rooms.filter isFree) count.toNat = some (mkResult w)
      unfold phase2
      exact hf
    · show ((w.length : Int) = count)
      omega

/-- Witness for C1 (amended): two distinct free rooms on floor 1, count 2. -/
theorem claim_C1_witness :
    ∃ b, allocateRooms [sampleRoomA, sampleRoomB] 2 = some b ∧
      (b.rooms.length : Int) = 2 ∧ b.rooms.Nodup ∧
      ∀ r ∈ b.rooms, r ∈ [sampleRoomA, sampleRoomB] ∧ r.status = RoomStatus.free :=
  claim_C1_amended_alloc_valid [sampleRoomA, sampleRoomB] 2
    (by decide) (by decide) (by decide) (by decide)

/-- C3 counterexample: floorSix has six free rooms on floor 1, so the claim's
premise "some floor contains at least count free rooms" holds for count = 6,
yet allocateRooms returns no result at all, because the count guard rejects
count > 5 before either phase runs. -/
theorem claim_C3_counterexample :
    (6 : Int) ≤ (((floorSix.filter isFree).filter
        (fun r => decide (r.floor = 1))).length : Int) ∧
    allocateRooms floorSix 6 = none := by
  decide

/-- C3 amended: for 1 ≤ count ≤ 5 (the counterexample forces the count
bounds), whenever some floor has at least count free rooms, allocateRooms
returns a result, that result is exactly the Phase 1 result (so Phase 2 is
never consulted), and all of its rooms lie on one single floor. -/
theorem claim_C3_amended_single_floor (rooms : List Room) (count : Int) (f : Int)
    (h1 : 1 ≤ count) (h5 : count ≤ 5)
    (hfl : count ≤ (((rooms.filter isFree).filter
        (fun r => decide (r.floor = f))).length : Int)) :
    ∃ b, allocateRooms rooms count = some b ∧
      phase1 (roomsByFloor (rooms.filter isFree)) count.toNat = some b ∧
      ∃ f', ∀ r ∈ b.rooms, r.floor = f' := by
  have hsub : ((rooms.filter isFree).filter
        (fun r => decide (r.floor = f))).length ≤ (rooms.filter isFree).length :=
    List.length_filter_le _ _
  have hav : count ≤ ((rooms.filter isFree).length : Int) := by omega
  have hrw := allocateRooms_valid_eq rooms count h1 h5 hav
  have hflne : ∃ r ∈ rooms.filter isFree, r.floor = f := by
    obtain ⟨r, hr⟩ := List.exists_mem_of_length_pos
      (l := (rooms.filter isFree).filter (fun r => decide (r.floor = f))) (by omega)
    have hr' := List.mem_filter.mp hr
    exact ⟨r, hr'.1, by simpa using hr'.2⟩
  obtain ⟨q, hq, hq1⟩ := roomsByFloor_exists_group _ f hflne
  have hg2 : q.2 = (rooms.filter isFree).filter (fun r => decide (r.floor = q.1)) :=
    roomsByFloor_group _ q hq
  have hg2len : count.toNat ≤ q.2.length := by
    rw [hg2, hq1]
    omega
  have hwne : floorWindows count.toNat q.2 ≠ [] := floorWindows_ne_nil hg2len
  have hcandsne : (roomsByFloor (rooms.filter isFree)).flatMap
      (fun g => floorWindows count.toNat g.2) ≠ [] := by
    intro hnil
    obtain ⟨w0, hw0⟩ := List.exists_mem_of_length_pos
      (l := floorWindows count.toNat q.2)
      (by cases hfw : floorWindows count.toNat q.2 with
          | nil => exact absurd hfw hwne
          | cons a l => simp [hfw])
    have hmem : w0 ∈ (roomsByFloor (rooms.filter isFree)).flatMap
        (fun g => floorWindows count.toNat g.2) :=
      List.mem_flatMap.mpr ⟨q, hq, hw0⟩
    rw [hnil] at hmem
    cases hmem
  obtain ⟨l₁, w, l₂, hdec, hf2, hmin, hstrict⟩ := foldBetter_none_eq _ hcandsne
  have hp : phase1 (roomsByFloor (rooms.filter isFree)) count.toNat
      = some (mkResult w) := by
    rw [phase1_eq]
    exact hf2
  refine ⟨mkResult w, ?_, hp, ?_⟩
  · rw [hrw, hp]
  · have hw : w ∈ (roomsByFloor (rooms.filter isFree)).flatMap
        (fun g => floorWindows count.toNat g.2) := by
      rw [hdec]
      exact List.mem_append.mpr (Or.inr (List.mem_cons_self _ _))
    obtain ⟨g', hg', hwg'⟩ := List.mem_flatMap.mp hw
    refine ⟨g'.1, ?_⟩
    intro r hr
    obtain ⟨_, hsubl⟩ := floorWindows_mem hwg'
    have hrg : r ∈ g'.2 :=
      (List.perm_insertionSort idxLe g'.2).mem_iff.mp (hsubl.subset hr)
    have hgr := roomsByFloor_group _ g' hg'
    rw [hgr] at hrg
    have := List.mem_filter.mp hrg
    simpa using this.2

/-- Witness for C3 (amended): floor 1 holds two free rooms, count 2. -/
theorem claim_C3_witness :
    ∃ b, allocateRooms [sampleRoomA, sampleRoomB, sampleRoomC] 2 = some b ∧
      phase1 (roomsByFloor ([sampleRoomA, sampleRoomB, sampleRoomC].filter isFree)) 2
        = some b ∧
      ∃ f', ∀ r ∈ b.rooms, r.floor = f' :=
  claim_C3_amended_single_floor [sampleRoomA, sampleRoomB, sampleRoomC] 2 1
    (by decide) (by decide) (by decide)

/-- A floor with fewer free rooms than the requested count contributes no
window. -/
theorem floorWindows_eq_nil_of_short {count : Nat} {fr : List Room}
    (h : fr.length < count) : floorWindows count fr = [] := by
  unfold floorWindows
  rw [if_pos (by rw [List.length_insertionSort]; exact h)]

/-- C6: when the guards pass but no floor holds count free rooms, the
allocator runs Phase 2: the candidate pool is the (floor, position)-sorted
free rooms truncated to the first 20, the enumerated candidates are exactly
the count-element combinations (sublists) of that pool in backtracking order,
the returned result is the enumerated combination of minimum
totalTravelTimeForRooms with the first-found one winning ties (everything
strictly earlier in enumeration order costs strictly more), and every room of
the result lies in the 20-bounded pool. -/
theorem claim_C6_phase2 (rooms : List Room) (count : Int)
    (h1 : 1 ≤ count) (h5 : count ≤ 5)
    (hav : count ≤ ((rooms.filter isFree).length : Int))
    (hnofloor : ∀ f ∈ (rooms.filter isFree).map Room.floor,
      ((rooms.filter isFree).filter (fun r => decide (r.floor = f))).length
        < count.toNat) :
    ∃ l₁ w l₂,
      combinations count.toNat (candidatePool (rooms.filter isFree))
        = l₁ ++ w :: l₂ ∧
      allocateRooms rooms count = some (mkResult w) ∧
      (∀ c ∈ combinations count.toNat (candidatePool (rooms.filter isFree)),
        totalTravelTimeForRooms w ≤ totalTravelTimeForRooms c) ∧
      (∀ c ∈ l₁, totalTravelTimeForRooms w < totalTravelTimeForRooms c) ∧
      (∀ s, s ∈ combinations count.toNat (candidatePool (rooms.filter isFree))
        ↔ (s.length = count.toNat ∧
            s.Sublist (candidatePool (rooms.filter isFree)))) ∧
      (∀ r ∈ w, r ∈ candidatePool (rooms.filter isFree)) ∧
      List.Pairwise poolLe (candidatePool (rooms.filter isFree)) ∧
      candidatePool (rooms.filter isFree)
        = (List.insertionSort poolLe (rooms.filter isFree)).take 20 := by
  have hrw := allocateRooms_valid_eq rooms count h1 h5 hav
  have hp1 : phase1 (roomsByFloor (rooms.filter isFree)) count.toNat = none := by
    rw [phase1_eq]
    have hnil : (roomsByFloor (rooms.filter isFree)).flatMap
        (fun g => floorWindows count.toNat g.2) = [] := by
      rw [List.flatMap_eq_nil_iff]
      intro g hg
      have hg2 := roomsByFloor_group _ g hg
      have hkey : g.1 ∈ (rooms.filter isFree).map Room.floor := by
        have hmem : g.1 ∈ floorKeys (roomsByFloor (rooms.filter isFree)) :=
          List.mem_map.mpr ⟨g, hg, rfl⟩
        obtain ⟨r, hr, hrf⟩ := (roomsByFloor_keys_iff _ _).mp hmem
        exact List.mem_map.mpr ⟨r, hr, hrf⟩
      apply floorWindows_eq_nil_of_short
      rw [hg2]
      exact hnofloor g.1 hkey
    rw [hnil]
    rfl
  have halloc : allocateRooms rooms count
      = phase2 (rooms.filter isFree) count.toNat := by
    rw [hrw, hp1]
  have hpoollen : count.toNat ≤ (candidatePool (rooms.filter isFree)).length := by
    rw [candidatePool_length]
    omega
  obtain ⟨l₁, w, l₂, hdec, hf, hmin, hstrict⟩ :=
    foldBetter_none_eq _ (combinations_ne_nil hpoollen)
  refine ⟨l₁, w, l₂, hdec, ?_, hmin, hstrict, ?_, ?_, ?_, ?_⟩
  · rw [halloc]
    unfold phase2
    exact hf
  · intro s
    exact mem_combinations (candidatePool (rooms.filter isFree)) count.toNat s
  · intro r hr
    have hw : w ∈ combinations count.toNat (candidatePool (rooms.filter isFree)) := by
      rw [hdec]
      exact List.mem_append.mpr (Or.inr (List.mem_cons_self _ _))
    obtain ⟨_, hsub⟩ := (mem_combinations _ _ _).mp hw
    exact hsub.subset hr
  · exact List.Pairwise.sublist (List.take_sublist _ _)
      (sorted_insertionSort_poolLe (rooms.filter isFree))
  · exact candidatePool_eq_take20 (rooms.filter isFree)

/-- Witness for C6: one free room on each of floors 1 and 2, count 2. -/
theorem claim_C6_witness :
    ∃ l₁ w l₂,
      combinations 2 (candidatePool ([sampleRoomA, sampleRoomC].filter isFree))
        = l₁ ++ w :: l₂ ∧
      allocateRooms [sampleRoomA, sampleRoomC] 2 = some (mkResult w) ∧
      (∀ c ∈ combinations 2 (candidatePool ([sampleRoomA, sampleRoomC].filter isFree)),
        totalTravelTimeForRooms w ≤ totalTravelTimeForRooms c) ∧
      (∀ c ∈ l₁, totalTravelTimeForRooms w < totalTravelTimeForRooms c) ∧
      (∀ s, s ∈ combinations 2 (candidatePool ([sampleRoomA, sampleRoomC].filter isFree))
        ↔ (s.length = 2 ∧
            s.Sublist (candidatePool ([sampleRoomA, sampleRoomC].filter isFree)))) ∧
      (∀ r ∈ w, r ∈ candidatePool ([sampleRoomA, sampleRoomC].filter isFree)) ∧
      List.Pairwise poolLe (candidatePool ([sampleRoomA, sampleRoomC].filter isFree)) ∧
      candidatePool ([sampleRoomA, sampleRoomC].filter isFree)
        = (List.insertionSort poolLe ([sampleRoomA, sampleRoomC].filter isFree)).take 20 :=
  claim_C6_phase2 [sampleRoomA, sampleRoomC] 2
    (by decide) (by decide) (by decide) (by decide)

/-- C10: if the input has at least one free room, a one-room request succeeds
with a single room at totalTravelTime 0, and the chosen room has, among the
free rooms on the floor of the first free room in input order, a minimal
positionOnFloor; moreover, when the input list is sorted by
(floor, positionOnFloor) — as the canonical buildHotelRooms order is — the
chosen room is (floor, positionOnFloor)-lexicographically minimal among all
free rooms. -/
theorem claim_C10_count_one (rooms : List Room) (r₀ : Room) (rest : List Room)
    (hfr : rooms.filter isFree = r₀ :: rest) :
    ∃ r, allocateRooms rooms 1 = some { rooms := [r], totalTravelTime := 0 } ∧
      r ∈ rooms.filter isFree ∧ r.floor = r₀.floor ∧
      (∀ s ∈ rooms.filter isFree, s.floor = r₀.floor →
        r.indexOnFloor ≤ s.indexOnFloor) ∧
      (List.Pairwise poolLe rooms →
        ∀ s ∈ rooms.filter isFree, poolLe r s) := by
  have hlen1 : (rooms.filter isFree).length = rest.length + 1 := by
    rw [hfr]
    rfl
  have hav : (1 : Int) ≤ ((rooms.filter isFree).length : Int) := by omega
  have hrw := allocateRooms_valid_eq rooms 1 (by norm_num) (by norm_num) hav
  obtain ⟨g, grest, hbf⟩ : ∃ g grest,
      roomsByFloor (rooms.filter isFree) = (r₀.floor, g) :: grest := by
    rw [hfr]
    exact roomsByFloor_cons_head r₀ rest
  have hgmem : ((r₀.floor, g) : Int × List Room) ∈ roomsByFloor (rooms.filter isFree) := by
    rw [hbf]
    exact List.mem_cons_self _ _
  have hg : g = (rooms.filter isFree).filter (fun r => decide (r.floor = r₀.floor)) :=
    roomsByFloor_group _ _ hgmem
  have hr₀g : r₀ ∈ g := by
    rw [hg]
    refine List.mem_filter.mpr ⟨?_, by simp⟩
    rw [hfr]
    exact List.mem_cons_self _ _
  obtain ⟨hd, tl, rest', hsort, hwin⟩ := floorWindows_one (List.ne_nil_of_mem hr₀g)
  have hcands : (roomsByFloor (rooms.filter isFree)).flatMap (fun q => floorWindows 1 q.2)
      = [hd] :: (rest' ++ grest.flatMap (fun q => floorWindows 1 q.2)) := by
    rw [hbf, List.flatMap_cons]
    show floorWindows 1 g ++ grest.flatMap (fun q => floorWindows 1 q.2)
      = [hd] :: (rest' ++ grest.flatMap (fun q => floorWindows 1 q.2))
    rw [hwin, List.cons_append]
  have hallzero : ∀ w ∈ (roomsByFloor (rooms.filter isFree)).flatMap
      (fun q => floorWindows 1 q.2), totalTravelTimeForRooms w = 0 := by
    intro w hw
    obtain ⟨q, _, hwq⟩ := List.mem_flatMap.mp hw
    obtain ⟨hlen, _⟩ := floorWindows_mem hwq
    exact totalTravelTime_short w (by omega)
  have hne : (roomsByFloor (rooms.filter isFree)).flatMap
      (fun q => floorWindows 1 q.2) ≠ [] := by
    rw [hcands]
    simp
  obtain ⟨l₁, w, l₂, hdec, hf, hmin, hstrict⟩ := foldBetter_none_eq _ hne
  have hl₁nil : l₁ = [] := by
    cases l₁ with
    | nil => rfl
    | cons c0 l₁' =>
      have hc0 : c0 ∈ (roomsByFloor (rooms.filter isFree)).flatMap
          (fun q => floorWindows 1 q.2) := by
        rw [hdec]
        exact List.mem_append.mpr (Or.inl (List.mem_cons_self _ _))
      have hw0 : w ∈ (roomsByFloor (rooms.filter isFree)).flatMap
          (fun q => floorWindows 1 q.2) := by
        rw [hdec]
        exact List.mem_append.mpr (Or.inr (List.mem_cons_self _ _))
      have hlt := hstrict c0 (List.mem_cons_self _ _)
      rw [hallzero c0 hc0, hallzero w hw0] at hlt
      exact absurd hlt (lt_irrefl 0)
  subst hl₁nil
  rw [List.nil_append] at hdec
  have hweq : w = [hd] := by
    have hcw : ([hd] : List Room) :: (rest' ++ grest.flatMap (fun q => floorWindows 1 q.2))
        = w :: l₂ := hcands.symm.trans hdec
    injection hcw with hcw1 _
    exact hcw1.symm
  subst hweq
  have hphase : phase1 (roomsByFloor (rooms.filter isFree)) (1 : Int).toNat
      = some (mkResult [hd]) := by
    show phase1 (roomsByFloor (rooms.filter isFree)) 1 = some (mkResult [hd])
    rw [phase1_eq]
    exact hf
  have hmk : mkResult [hd] = { rooms := [hd], totalTravelTime := 0 } := by
    unfold mkResult
    rw [totalTravelTime_short [hd] (by simp)]
  have hdsort : hd ∈ List.insertionSort idxLe g := by
    rw [hsort]
    exact List.mem_cons_self _ _
  have hdg : hd ∈ g := (List.perm_insertionSort idxLe g).mem_iff.mp hdsort
  have hdgf := List.mem_filter.mp (hg ▸ hdg)
  have hdfree : hd ∈ rooms.filter isFree := hdgf.1
  have hdfloor : hd.floor = r₀.floor := by
    have := hdgf.2
    simpa using this
  have hminIdx : ∀ s ∈ rooms.filter isFree, s.floor = r₀.floor →
      hd.indexOnFloor ≤ s.indexOnFloor := by
    intro s hs hsf
    have hsg : s ∈ g := by
      rw [hg]
      exact List.mem_filter.mpr ⟨hs, by simpa using hsf⟩
    have hssort : s ∈ List.insertionSort idxLe g :=
      (List.perm_insertionSort idxLe g).mem_iff.mpr hsg
    rw [hsort] at hssort
    rcases List.mem_cons.mp hssort with heq | htl
    · rw [heq]
    · have hpair := sorted_insertionSort_idxLe g
      rw [hsort] at hpair
      exact (List.pairwise_cons.mp hpair).1 s htl
  refine ⟨hd, ?_, hdfree, hdfloor, hminIdx, ?_⟩
  · rw [hrw, hphase]
    show some (mkResult [hd]) = some { rooms := [hd], totalTravelTime := 0 }
    rw [hmk]
  · intro hpw s hs
    have hpwf : List.Pairwise poolLe (rooms.filter isFree) :=
      List.Pairwise.sublist (List.filter_sublist _) hpw
    rw [hfr] at hpwf
    have hr₀le : ∀ t ∈ rest, poolLe r₀ t := (List.pairwise_cons.mp hpwf).1
    rw [hfr] at hs
    rcases List.mem_cons.mp hs with heq | hsrest
    · rw [heq]
      exact Or.inr ⟨hdfloor, hminIdx r₀ (by rw [hfr]; exact List.mem_cons_self _ _) rfl⟩
    · have hps : r₀.floor < s.floor
          ∨ (r₀.floor = s.floor ∧ r₀.indexOnFloor ≤ s.indexOnFloor) :=
        hr₀le s hsrest
      rcases hps with hlt | ⟨heqf, _⟩
      · exact Or.inl (by rw [hdfloor]; exact hlt)
      · exact Or.inr ⟨by rw [hdfloor, heqf],
          hminIdx s (by rw [hfr]; exact List.mem_cons_of_mem _ hsrest) heqf.symm⟩

/-- Witness for C10: two free rooms on floor 1 listed out of position order;
the allocator picks the one at position 0. -/
theorem claim_C10_witness :
    ∃ r, allocateRooms [sampleRoomB, sampleRoomA] 1
        = some { rooms := [r], totalTravelTime := 0 } ∧
      r ∈ [sampleRoomB, sampleRoomA].filter isFree ∧ r.floor = sampleRoomB.floor ∧
      (∀ s ∈ [sampleRoomB, sampleRoomA].filter isFree, s.floor = sampleRoomB.floor →
        r.indexOnFloor ≤ s.indexOnFloor) ∧
      (List.Pairwise poolLe [sampleRoomB, sampleRoomA] →
        ∀ s ∈ [sampleRoomB, sampleRoomA].filter isFree, poolLe r s) :=
  claim_C10_count_one [sampleRoomB, sampleRoomA] sampleRoomB [sampleRoomA] (by decide)
